import Mathlib

/-
Verification of the La Pearle caviar tin-mix optimizer.

Shallow embedding of the core logic of
  src/caviar_event_calculator_v4_2.py  (grams_required, optimize_and_rank)
  src/caviar_mix_app_la_pearle.py      (grams_required, optimize_mix)

Modelling conventions:
- gram quantities and unit counts are natural numbers (the UI widgets force
  integers with min 1 for grams, min 0/1 for counts);
- prices, costs and the share percentage are exact rationals (Python floats
  compared with full precision are modelled by exact arithmetic, matching the
  spec's "internal comparisons use full precision");
- Python's stable sort (list.sort / sorted) is modelled by a structurally
  recursive stable insertion sort: a stable sort's output is uniquely
  determined by the comparator and the input order, so any stable sort is a
  faithful model;
- the infeasible return value ({"error": ...}, []) is modelled by a dedicated
  constructor of the result type.
-/

/-- The three objective-mode strings of the sidebar selectbox.  The Python
code dispatches on the exact strings with a catch-all else for
"Fewest tins (recommended)". -/
inductive Objective where
  | fewest : Objective
  | balanced : Objective
  | cheapest : Objective
deriving DecidableEq, Repr

/-- The inputs of optimize_and_rank (v4.2 signature). -/
structure Params where
  req : ℕ
  g250 : ℕ
  p250 : ℚ
  g8 : ℕ
  p8 : ℚ
  g7 : ℕ
  p7 : ℚ
  g125 : ℕ
  p125 : ℚ
  objective : Objective
  service_penalty : ℚ
  cap_125_share_on : Bool
  cap_125_share_pct : ℚ
  cap_250 : ℕ
  cap_8 : ℕ
  cap_125 : ℕ
  top_k : ℕ
deriving DecidableEq, Repr

/-- A candidate purchase combination, as accumulated in the Python `combos`
list: the four unit counts together with the derived purchased grams, total
tin count, total cost and overage.  `over` is an integer because Python
computes `purchased - req_g` in ℤ. -/
structure Combo where
  x250 : ℕ
  x8 : ℕ
  x7 : ℕ
  x125 : ℕ
  purchased : ℕ
  tins : ℕ
  cost : ℚ
  over : ℤ
deriving DecidableEq, Repr

/-- Ceiling division on naturals: `math.ceil(a / b)` for nonneg ints
(exact for b > 0, matching Python's float division followed by ceil). -/
def cdiv (a b : ℕ) : ℕ := (a + b - 1) / b

/-- The body of the innermost loop of both optimizers: given the three
free-choice counts (250 g, 8 oz, 125 g), derive the 7 oz fill count, the
purchased grams, tins, cost and overage. -/
def mkCombo (p : Params) (a b d : ℕ) : Combo :=
  let gsf := a * p.g250 + b * p.g8 + d * p.g125
  let x7 := if p.req ≤ gsf then 0 else cdiv (p.req - gsf) p.g7
  let purchased := gsf + x7 * p.g7
  { x250 := a, x8 := b, x7 := x7, x125 := d,
    purchased := purchased,
    tins := a + b + x7 + d,
    cost := a * p.p250 + b * p.p8 + x7 * p.p7 + d * p.p125,
    over := (purchased : ℤ) - (p.req : ℤ) }

/-- The share-cap filter: the Python loop skips a combination iff the cap is
on, purchased grams are positive and the 125 g share of purchased grams
strictly exceeds the configured percentage. -/
def shareOk (p : Params) (c : Combo) : Bool :=
  !(p.cap_125_share_on && decide (0 < c.purchased)
      && decide (p.cap_125_share_pct < (c.x125 * p.g125 : ℚ) / (c.purchased : ℚ) * 100))

/-- Enumeration bound for the 250 g kind: the configured cap if positive,
else ceil(req / grams) + 8. -/
def max_250 (p : Params) : ℕ := if 0 < p.cap_250 then p.cap_250 else cdiv p.req p.g250 + 8

/-- Enumeration bound for the 8 oz kind. -/
def max_8 (p : Params) : ℕ := if 0 < p.cap_8 then p.cap_8 else cdiv p.req p.g8 + 8

/-- Enumeration bound for the 125 g kind. -/
def max_125 (p : Params) : ℕ := if 0 < p.cap_125 then p.cap_125 else cdiv p.req p.g125 + 8

/-- The `combos` list of optimize_and_rank: the triple nested loop over
the three free-choice counts (0 .. bound inclusive, 250 g outermost, then
8 oz, then 125 g innermost), keeping the combinations that pass the share
filter, in enumeration order. -/
def candidates (p : Params) : List Combo :=
  (List.range (max_250 p + 1)).flatMap (fun a =>
    (List.range (max_8 p + 1)).flatMap (fun b =>
      (List.range (max_125 p + 1)).filterMap (fun d =>
        let c := mkCombo p a b d
        if shareOk p c then some c else none)))

/-- Lexicographic non-strict order on score triples (Python tuple `<=`). -/
def lex3Le (u v : ℚ × ℚ × ℚ) : Prop :=
  u.1 < v.1 ∨ (u.1 = v.1 ∧ (u.2.1 < v.2.1 ∨ (u.2.1 = v.2.1 ∧ u.2.2 ≤ v.2.2)))

/-- Lexicographic strict order on score triples (Python tuple `<`). -/
def lex3Lt (u v : ℚ × ℚ × ℚ) : Prop :=
  u.1 < v.1 ∨ (u.1 = v.1 ∧ (u.2.1 < v.2.1 ∨ (u.2.1 = v.2.1 ∧ u.2.2 < v.2.2)))

instance (u v : ℚ × ℚ × ℚ) : Decidable (lex3Le u v) := by unfold lex3Le; infer_instance

instance (u v : ℚ × ℚ × ℚ) : Decidable (lex3Lt u v) := by unfold lex3Lt; infer_instance

/-- The objective score of a combination (the first component of the tuples
appended to `combos`). -/
def score (p : Params) (c : Combo) : ℚ × ℚ × ℚ :=
  match p.objective with
  | Objective.cheapest => (c.cost, ((c.over : ℚ), (c.tins : ℚ)))
  | Objective.balanced => (c.cost + p.service_penalty * (c.tins : ℚ), ((c.over : ℚ), (c.tins : ℚ)))
  | Objective.fewest => ((c.tins : ℚ), (c.cost, (c.over : ℚ)))

/-- Comparator for the best-selection sort `combos.sort(key=lambda t: t[0])`. -/
def scoreLe (p : Params) (c d : Combo) : Bool := decide (lex3Le (score p c) (score p d))

/-- The alternatives sort key `(total_tins, cost, over)` of
`sorted(combos, key=lambda t: (t[1], t[2], t[3]))`. -/
def altKey (c : Combo) : ℚ × ℚ × ℚ := ((c.tins : ℚ), (c.cost, (c.over : ℚ)))

/-- Comparator for the alternatives sort. -/
def altLe (c d : Combo) : Bool := decide (lex3Le (altKey c) (altKey d))

/-- The legacy optimize_mix key `(cost, over, total_tins)`. -/
def mixKey (c : Combo) : ℚ × ℚ × ℚ := (c.cost, ((c.over : ℚ), (c.tins : ℚ)))

/-- Non-strict comparator on the legacy key (equals `scoreLe` in
"Cheapest only" mode). -/
def mixLe (c d : Combo) : Bool := decide (lex3Le (mixKey c) (mixKey d))

/-- The strict comparison `key < best[:3]` of the legacy optimize_mix loop. -/
def mixLt (c d : Combo) : Bool := decide (lex3Lt (mixKey c) (mixKey d))

/-- Stable insertion of one element into a sorted list: the new element is
placed before the first strictly greater element and therefore after all
elements it ties with. -/
def insertOrd (le : α → α → Bool) (a : α) : List α → List α
  | [] => [a]
  | b :: l => if le a b then a :: b :: l else b :: insertOrd le a l

/-- Stable sort, modelling Python's `list.sort` / `sorted` with a key
comparator: since the head element of the unsorted list precedes every
element it ties with, inserting it in front of ties preserves stability. -/
def stableSort (le : α → α → Bool) : List α → List α
  | [] => []
  | a :: l => insertOrd le a (stableSort le l)

/-- `(x250, x8, x7, x125)`: the dedup key of the alternatives loop. -/
def mixTuple (c : Combo) : ℕ × ℕ × ℕ × ℕ := (c.x250, (c.x8, (c.x7, c.x125)))

/-- The alternatives loop: walk the alt-sorted list, skip combinations whose
unit-count four-tuple was already seen, append the rest, and stop as soon as
the accumulated list reaches `top_k` entries (Python appends and then breaks
when `len(alts) >= top_k`, so with `k` remaining slots it stops right after
an append whenever `k ≤ 1`). -/
def altsTake (k : ℕ) (seen : List (ℕ × ℕ × ℕ × ℕ)) : List Combo → List Combo
  | [] => []
  | c :: rest =>
    if mixTuple c ∈ seen then altsTake k seen rest
    else if k ≤ 1 then [c]
    else c :: altsTake (k - 1) (mixTuple c :: seen) rest

/-- The return value of optimize_and_rank: either the explicit infeasibility
record `({"error": ...}, [])` or a best combination plus alternatives. -/
inductive RankedResult where
  | infeasible : RankedResult
  | ok : Combo → List Combo → RankedResult
deriving DecidableEq, Repr

/-- optimize_and_rank of v4.2: enumerate candidates, return the error value
when none survive, else stable-sort by objective score, take the head as
best, re-sort (stably) by `(tins, cost, over)` and run the dedup/truncate
loop for the alternatives. -/
def optimize_and_rank (p : Params) : RankedResult :=
  match stableSort (scoreLe p) (candidates p) with
  | [] => RankedResult.infeasible
  | best :: rest =>
      RankedResult.ok best (altsTake p.top_k [] (stableSort altLe (best :: rest)))

/-- The enumeration of the legacy optimize_mix: margin +6 instead of +8,
no caps, no share filter, same loop order and same inner-loop body. -/
def mixCandidates (p : Params) : List Combo :=
  (List.range (cdiv p.req p.g250 + 6 + 1)).flatMap (fun a =>
    (List.range (cdiv p.req p.g8 + 6 + 1)).flatMap (fun b =>
      (List.range (cdiv p.req p.g125 + 6 + 1)).map (fun d => mkCombo p a b d)))

/-- One step of the legacy running-best update:
`if (best is None) or (key < best[:3]): best = ...`. -/
def pickBetter (lt : α → α → Bool) (acc : Option α) (c : α) : Option α :=
  match acc with
  | none => some c
  | some b => if lt c b then some c else some b

/-- The legacy optimize_mix (caviar_mix_app_la_pearle.py): fold the
strict-improvement update over the enumeration.  Only the req / grams /
price fields of `p` are read. -/
def optimize_mix (p : Params) : Option Combo :=
  (mixCandidates p).foldl (pickBetter mixLt) none

/-- grams_required of both files: `math.ceil(guests * tastings * g_per_taste)`. -/
def grams_required (guests : ℕ) (tastings g_per_taste : ℚ) : ℤ :=
  ⌈(guests : ℚ) * tastings * g_per_taste⌉

/-- The running least element of a list, ties resolved in favour of the
earlier element; `none` on the empty list.  This is what the head of a
stable sort, and equally the first-strict-improvement fold of the legacy
optimizer, compute. -/
def leastBy (le : α → α → Bool) : List α → Option α
  | [] => none
  | a :: l =>
    match leastBy le l with
    | none => some a
    | some m => some (if le a m then a else m)

/-- The least element of `m :: l`, ties resolved in favour of the earlier
element, written as a left-to-right scan with accumulator `m`. -/
def leastFrom (le : α → α → Bool) (m : α) : List α → α
  | [] => m
  | a :: l => if le m a then leastFrom le m l else leastFrom le a l

/-- The best combination of optimize_and_rank, viewed as an optional value
(`none` on the infeasibility record). -/
def rankBest (p : Params) : Option Combo :=
  match optimize_and_rank p with
  | RankedResult.infeasible => none
  | RankedResult.ok b _ => some b

/-- A small concrete input: requirement 2 g, tin sizes 2/1/1/1 g at prices
3/2/1/1, fewest-tins objective, share cap 50 % on, all unit caps 1,
top_k = 2.  Used to exhibit concrete runs of the optimizer. -/
def pW : Params :=
  { req := 2, g250 := 2, p250 := 3, g8 := 1, p8 := 2, g7 := 1, p7 := 1,
    g125 := 1, p125 := 1, objective := Objective.fewest, service_penalty := 1,
    cap_125_share_on := true, cap_125_share_pct := 50,
    cap_250 := 1, cap_8 := 1, cap_125 := 1, top_k := 2 }

/-- The best combination optimize_and_rank returns on `pW`. -/
def bW : Combo :=
  { x250 := 1, x8 := 0, x7 := 0, x125 := 0, purchased := 2, tins := 1, cost := 3, over := 0 }

/-- The alternatives list optimize_and_rank returns on `pW`. -/
def aW : List Combo :=
  [{ x250 := 1, x8 := 0, x7 := 0, x125 := 0, purchased := 2, tins := 1, cost := 3, over := 0 },
   { x250 := 0, x8 := 0, x7 := 2, x125 := 0, purchased := 2, tins := 2, cost := 2, over := 0 }]

/-- A non-best surviving combination on `pW` (one tin of each free kind). -/
def cW : Combo := mkCombo pW 1 1 1

/-- `pW` with a zero gram requirement. -/
def pZ : Params :=
  { req := 0, g250 := 2, p250 := 3, g8 := 1, p8 := 2, g7 := 1, p7 := 1,
    g125 := 1, p125 := 1, objective := Objective.fewest, service_penalty := 1,
    cap_125_share_on := true, cap_125_share_pct := 50,
    cap_250 := 1, cap_8 := 1, cap_125 := 1, top_k := 2 }

/-- The default La Pearle configuration in "Cheapest only" mode with the
share cap off and no unit caps (the legacy optimize_mix configuration). -/
def pC : Params :=
  { req := 270, g250 := 250, p250 := 345, g8 := 227, p8 := 312, g7 := 198, p7 := 273,
    g125 := 125, p125 := 12757/100, objective := Objective.cheapest, service_penalty := 8,
    cap_125_share_on := false, cap_125_share_pct := 60,
    cap_250 := 0, cap_8 := 0, cap_125 := 0, top_k := 10 }

/-- The best combination optimize_and_rank returns on `pZ`. -/
def bZ : Combo :=
  { x250 := 0, x8 := 0, x7 := 0, x125 := 0, purchased := 0, tins := 0, cost := 0, over := 0 }

/-- The alternatives list optimize_and_rank returns on `pZ`. -/
def aZ : List Combo :=
  [{ x250 := 0, x8 := 0, x7 := 0, x125 := 0, purchased := 0, tins := 0, cost := 0, over := 0 },
   { x250 := 0, x8 := 1, x7 := 0, x125 := 0, purchased := 1, tins := 1, cost := 2, over := 1 }]

/-! ### Order lemmas for the lexicographic score comparison -/

theorem lex3Le_refl (u : ℚ × ℚ × ℚ) : lex3Le u u := by
  simp [lex3Le]

theorem lex3Le_trans {u v w : ℚ × ℚ × ℚ} (h1 : lex3Le u v) (h2 : lex3Le v w) : lex3Le u w := by
  unfold lex3Le at *
  rcases h1 with h1 | ⟨e1, h1⟩ <;> rcases h2 with h2 | ⟨e2, h2⟩
  · exact Or.inl (h1.trans h2)
  · exact Or.inl (e2 ▸ h1)
  · exact Or.inl (e1 ▸ h2)
  · refine Or.inr ⟨e1.trans e2, ?_⟩
    rcases h1 with h1 | ⟨f1, h1⟩ <;> rcases h2 with h2 | ⟨f2, h2⟩
    · exact Or.inl (h1.trans h2)
    · exact Or.inl (f2 ▸ h1)
    · exact Or.inl (f1 ▸ h2)
    · exact Or.inr ⟨f1.trans f2, h1.trans h2⟩

theorem lex3Le_total (u v : ℚ × ℚ × ℚ) : lex3Le u v ∨ lex3Le v u := by
  unfold lex3Le
  rcases lt_trichotomy u.1 v.1 with h | h | h
  · exact Or.inl (Or.inl h)
  · rcases lt_trichotomy u.2.1 v.2.1 with h2 | h2 | h2
    · exact Or.inl (Or.inr ⟨h, Or.inl h2⟩)
    · rcases le_total u.2.2 v.2.2 with h3 | h3
      · exact Or.inl (Or.inr ⟨h, Or.inr ⟨h2, h3⟩⟩)
      · exact Or.inr (Or.inr ⟨h.symm, Or.inr ⟨h2.symm, h3⟩⟩)
    · exact Or.inr (Or.inr ⟨h.symm, Or.inl h2⟩)
  · exact Or.inr (Or.inl h)

theorem lex3Lt_iff_not_le {u v : ℚ × ℚ × ℚ} : lex3Lt u v ↔ ¬ lex3Le v u := by
  unfold lex3Lt lex3Le
  constructor
  · rintro (h | ⟨e, h | ⟨f, h⟩⟩) (h' | ⟨e', h' | ⟨f', h'⟩⟩) <;> linarith
  · intro h
    rcases lt_trichotomy u.1 v.1 with h1 | h1 | h1
    · exact Or.inl h1
    · rcases lt_trichotomy u.2.1 v.2.1 with h2 | h2 | h2
      · exact Or.inr ⟨h1, Or.inl h2⟩
      · rcases lt_trichotomy u.2.2 v.2.2 with h3 | h3 | h3
        · exact Or.inr ⟨h1, Or.inr ⟨h2, h3⟩⟩
        · exact absurd (Or.inr ⟨h1.symm, Or.inr ⟨h2.symm, h3.symm.le⟩⟩) h
        · exact absurd (Or.inr ⟨h1.symm, Or.inr ⟨h2.symm, h3.le⟩⟩) h
      · exact absurd (Or.inr ⟨h1.symm, Or.inl h2⟩) h
    · exact absurd (Or.inl h1) h

/-! ### Stable sort: permutation, sortedness, head characterization -/

theorem insertOrd_perm (le : α → α → Bool) (a : α) (l : List α) :
    List.Perm (insertOrd le a l) (a :: l) := by
  induction l with
  | nil => exact List.Perm.refl _
  | cons b t ih =>
    cases hab : le a b with
    | true => simp [insertOrd, hab]
    | false =>
      simp only [insertOrd, hab, Bool.false_eq_true, if_false]
      exact (ih.cons b).trans (List.Perm.swap a b t)

theorem stableSort_perm (le : α → α → Bool) (l : List α) :
    List.Perm (stableSort le l) l := by
  induction l with
  | nil => exact List.Perm.refl _
  | cons a t ih =>
    exact (insertOrd_perm le a (stableSort le t)).trans (ih.cons a)

theorem mem_stableSort {le : α → α → Bool} {l : List α} {x : α} :
    x ∈ stableSort le l ↔ x ∈ l :=
  (stableSort_perm le l).mem_iff

theorem mem_insertOrd {le : α → α → Bool} {l : List α} {a x : α} :
    x ∈ insertOrd le a l ↔ x = a ∨ x ∈ l := by
  rw [(insertOrd_perm le a l).mem_iff, List.mem_cons]

theorem insertOrd_pairwise {le : α → α → Bool}
    (htrans : ∀ a b c, le a b = true → le b c = true → le a c = true)
    (htotal : ∀ a b, le a b = true ∨ le b a = true)
    {l : List α} (a : α) (h : l.Pairwise (fun x y => le x y = true)) :
    (insertOrd le a l).Pairwise (fun x y => le x y = true) := by
  induction l with
  | nil => simp [insertOrd]
  | cons b t ih =>
    rw [List.pairwise_cons] at h
    cases hab : le a b with
    | true =>
      simp only [insertOrd, hab, if_true]
      refine List.Pairwise.cons ?_ (List.Pairwise.cons h.1 h.2)
      intro x hx
      rcases List.mem_cons.mp hx with rfl | hx
      · exact hab
      · exact htrans a b x hab (h.1 x hx)
    | false =>
      simp only [insertOrd, hab, Bool.false_eq_true, if_false]
      refine List.Pairwise.cons ?_ (ih h.2)
      intro x hx
      rcases mem_insertOrd.mp hx with rfl | hx
      · rcases htotal x b with hba | hba
        · exact absurd hba (by simp [hab])
        · exact hba
      · exact h.1 x hx

theorem stableSort_pairwise {le : α → α → Bool}
    (htrans : ∀ a b c, le a b = true → le b c = true → le a c = true)
    (htotal : ∀ a b, le a b = true ∨ le b a = true)
    (l : List α) :
    (stableSort le l).Pairwise (fun x y => le x y = true) := by
  induction l with
  | nil => simp [stableSort]
  | cons a t ih => exact insertOrd_pairwise htrans htotal a ih

theorem headOption_insertOrd {le : α → α → Bool} (a : α) (l : List α) :
    (insertOrd le a l).head? =
      some (match l.head? with
            | none => a
            | some h => if le a h then a else h) := by
  cases l with
  | nil => rfl
  | cons b t =>
    cases hab : le a b with
    | true => simp [insertOrd, hab]
    | false => simp [insertOrd, hab]

theorem headOption_stableSort {le : α → α → Bool} (l : List α) :
    (stableSort le l).head? = leastBy le l := by
  induction l with
  | nil => rfl
  | cons a t ih =>
    show (insertOrd le a (stableSort le t)).head? = _
    rw [headOption_insertOrd, leastBy, ← ih]
    cases hh : (stableSort le t).head? with
    | none => rfl
    | some h => rfl

theorem leastBy_eq_none_iff {le : α → α → Bool} {l : List α} :
    leastBy le l = none ↔ l = [] := by
  cases l with
  | nil => simp [leastBy]
  | cons a t =>
    simp only [leastBy]
    cases leastBy le t <;> simp

theorem leastBy_mem {le : α → α → Bool} {l : List α} {m : α}
    (h : leastBy le l = some m) : m ∈ l := by
  induction l generalizing m with
  | nil => simp [leastBy] at h
  | cons a t ih =>
    rw [leastBy] at h
    cases ht : leastBy le t with
    | none =>
      rw [ht] at h
      dsimp only at h
      obtain rfl : a = m := Option.some.inj h
      exact List.mem_cons_self a t
    | some k =>
      rw [ht] at h
      dsimp only at h
      by_cases hak : le a k = true
      · rw [if_pos hak] at h
        obtain rfl : a = m := Option.some.inj h
        exact List.mem_cons_self a t
      · rw [if_neg hak] at h
        obtain rfl : k = m := Option.some.inj h
        exact List.mem_cons_of_mem a (ih ht)

theorem leastBy_le {le : α → α → Bool}
    (htrans : ∀ a b c, le a b = true → le b c = true → le a c = true)
    (htotal : ∀ a b, le a b = true ∨ le b a = true)
    {l : List α} {m : α} (h : leastBy le l = some m) :
    ∀ c ∈ l, le m c = true := by
  have hrefl : ∀ a : α, le a a = true := by
    intro a; rcases htotal a a with h | h <;> exact h
  induction l generalizing m with
  | nil => simp [leastBy] at h
  | cons a t ih =>
    rw [leastBy] at h
    cases ht : leastBy le t with
    | none =>
      rw [ht] at h
      dsimp only at h
      obtain rfl : a = m := Option.some.inj h
      rw [leastBy_eq_none_iff] at ht
      subst ht
      intro c hc
      rcases List.mem_cons.mp hc with rfl | hc
      · exact hrefl c
      · simp at hc
    | some k =>
      rw [ht] at h
      dsimp only at h
      intro c hc
      by_cases hak : le a k = true
      · rw [if_pos hak] at h
        obtain rfl : a = m := Option.some.inj h
        rcases List.mem_cons.mp hc with rfl | hc
        · exact hrefl c
        · exact htrans a k c hak (ih ht c hc)
      · rw [if_neg hak] at h
        obtain rfl : k = m := Option.some.inj h
        rcases List.mem_cons.mp hc with rfl | hc
        · rcases htotal k c with h' | h'
          · exact h'
          · exact absurd h' hak
        · exact ih ht c hc

theorem leastBy_decomp {le : α → α → Bool} {l : List α} {m : α}
    (h : leastBy le l = some m) :
    ∃ l₁ l₂, l = l₁ ++ m :: l₂ ∧ ∀ c ∈ l₁, le c m = false := by
  induction l generalizing m with
  | nil => simp [leastBy] at h
  | cons a t ih =>
    rw [leastBy] at h
    cases ht : leastBy le t with
    | none =>
      rw [ht] at h
      dsimp only at h
      obtain rfl : a = m := Option.some.inj h
      exact ⟨[], t, rfl, by simp⟩
    | some k =>
      rw [ht] at h
      dsimp only at h
      by_cases hak : le a k = true
      · rw [if_pos hak] at h
        obtain rfl : a = m := Option.some.inj h
        exact ⟨[], t, rfl, by simp⟩
      · rw [if_neg hak] at h
        obtain rfl : k = m := Option.some.inj h
        obtain ⟨l₁, l₂, rfl, hl₁⟩ := ih ht
        refine ⟨a :: l₁, l₂, rfl, ?_⟩
        intro c hc
        rcases List.mem_cons.mp hc with rfl | hc
        · exact Bool.not_eq_true (le c k) ▸ hak
        · exact hl₁ c hc

theorem sublist_pair_eq {l : List α} (hnd : l.Nodup) {a b : α}
    (h1 : List.Sublist [a, b] l) (h2 : List.Sublist [b, a] l) : a = b := by
  induction l with
  | nil => exact absurd (List.sublist_nil.mp h1) (by simp)
  | cons x t ih =>
    cases h1 with
    | cons _ h1' =>
      cases h2 with
      | cons _ h2' => exact ih (List.Nodup.of_cons hnd) h1' h2'
      | cons₂ _ h2' =>
        exact absurd (h1'.subset (by simp)) (List.nodup_cons.mp hnd).1
    | cons₂ _ h1' =>
      cases h2 with
      | cons _ h2' =>
        exact absurd (h2'.subset (by simp)) (List.nodup_cons.mp hnd).1
      | cons₂ _ h2' => rfl

theorem leastBy_sublist_eq {le : α → α → Bool}
    (htrans : ∀ a b c, le a b = true → le b c = true → le a c = true)
    (htotal : ∀ a b, le a b = true ∨ le b a = true)
    {big small : List α} (hsub : List.Sublist small big) (hnd : big.Nodup)
    (hdom : ∀ c ∈ big, c ∉ small → ∃ d ∈ small, le c d = false) :
    leastBy le big = leastBy le small := by
  induction big generalizing small with
  | nil =>
    rw [List.sublist_nil.mp hsub]
  | cons b t ih =>
    have hndt : t.Nodup := List.Nodup.of_cons hnd
    have hbt : b ∉ t := (List.nodup_cons.mp hnd).1
    cases hsub with
    | cons _ hsub' =>
      have hbs : b ∉ small := fun hb => hbt (hsub'.subset hb)
      obtain ⟨d, hd, hdb⟩ := hdom b (List.mem_cons_self b t) hbs
      have iht : leastBy le t = leastBy le small :=
        ih hsub' hndt (fun c hc hcs => hdom c (List.mem_cons_of_mem b hc) hcs)
      rw [leastBy, iht]
      cases hs : leastBy le small with
      | none =>
        rw [leastBy_eq_none_iff] at hs
        subst hs
        simp at hd
      | some m =>
        have hmd : le m d = true := leastBy_le htrans htotal hs d hd
        have hbm : le b m = false := by
          cases hbm : le b m with
          | false => rfl
          | true => exact absurd (htrans b m d hbm hmd) (by simp [hdb])
        dsimp only
        rw [hbm]
        simp
    | cons₂ _ hsub' =>
      rename_i s'
      rw [leastBy, leastBy]
      cases hs' : leastBy le s' with
      | none =>
        rw [leastBy_eq_none_iff] at hs'
        subst hs'
        cases ht : leastBy le t with
        | none => rfl
        | some mB =>
          have hmBt : mB ∈ t := leastBy_mem ht
          have hmBb : mB ≠ b := fun h => hbt (h ▸ hmBt)
          obtain ⟨d, hd, hdom'⟩ :=
            hdom mB (List.mem_cons_of_mem b hmBt) (by simp [hmBb])
          have hdb : d = b := by simpa using hd
          rw [hdb] at hdom'
          have hbmB : le b mB = true := by
            rcases htotal b mB with h | h
            · exact h
            · exact absurd h (by simp [hdom'])
          dsimp only
          rw [hbmB]
          simp
      | some mS =>
        cases ht : leastBy le t with
        | none =>
          rw [leastBy_eq_none_iff] at ht
          subst ht
          have : mS ∈ ([] : List α) := List.Sublist.subset hsub' (leastBy_mem hs')
          simp at this
        | some mB =>
          have hmSt : mS ∈ t := hsub'.subset (leastBy_mem hs')
          have hBle : le mB mS = true := leastBy_le htrans htotal ht mS hmSt
          dsimp only
          by_cases hmBs' : mB ∈ s'
          · have hSle : le mS mB = true := leastBy_le htrans htotal hs' mB hmBs'
            have hBS : mB = mS := by
              obtain ⟨s₁, s₂, hseq, hs₁⟩ := leastBy_decomp hs'
              rw [hseq] at hmBs'
              rcases List.mem_append.mp hmBs' with hmB1 | hmB1
              · exact absurd hBle (by simp [hs₁ mB hmB1])
              · rcases List.mem_cons.mp hmB1 with h | hmB2
                · exact h
                · obtain ⟨t₁, t₂, hteq, ht₁⟩ := leastBy_decomp ht
                  have hpair1 : List.Sublist [mS, mB] t := by
                    refine List.Sublist.trans ?_ hsub'
                    rw [hseq]
                    refine List.Sublist.trans ?_ (List.sublist_append_right s₁ (mS :: s₂))
                    exact (List.singleton_sublist.mpr hmB2).cons₂ mS
                  have hmSt' : mS ∈ t := hmSt
                  rw [hteq] at hmSt'
                  rcases List.mem_append.mp hmSt' with hmS1 | hmS1
                  · exact absurd hSle (by simp [ht₁ mS hmS1])
                  · rcases List.mem_cons.mp hmS1 with h | hmS2
                    · exact h.symm
                    · have hpair2 : List.Sublist [mB, mS] t := by
                        rw [hteq]
                        refine List.Sublist.trans ?_ (List.sublist_append_right t₁ (mB :: t₂))
                        exact (List.singleton_sublist.mpr hmS2).cons₂ mB
                      exact (sublist_pair_eq hndt hpair1 hpair2).symm
            rw [hBS]
          · have hmBsmall : mB ∉ b :: s' := by
              have hmBb : mB ≠ b := fun h => hbt (h ▸ leastBy_mem ht)
              simp [hmBb, hmBs']
            obtain ⟨d, hd, hdom'⟩ :=
              hdom mB (List.mem_cons_of_mem b (leastBy_mem ht)) hmBsmall
            rcases List.mem_cons.mp hd with hdb | hds'
            · rw [hdb] at hdom'
              have hbmB : le b mB = true := by
                rcases htotal b mB with h | h
                · exact h
                · exact absurd h (by simp [hdom'])
              have hbmS : le b mS = true := htrans b mB mS hbmB hBle
              rw [hbmB, hbmS]
              simp
            · have hmSd : le mS d = true := leastBy_le htrans htotal hs' d hds'
              exact absurd (htrans mB mS d hBle hmSd) (by simp [hdom'])

/-! ### The legacy fold computes the same leftmost least element -/

theorem leastFrom_eq_leastBy {le : α → α → Bool}
    (htrans : ∀ a b c, le a b = true → le b c = true → le a c = true)
    (htotal : ∀ a b, le a b = true ∨ le b a = true)
    (l : List α) (m : α) :
    leastFrom le m l =
      match leastBy le l with
      | none => m
      | some k => if le m k then m else k := by
  induction l generalizing m with
  | nil => rfl
  | cons a t ih =>
    rw [leastFrom, leastBy]
    cases hl : leastBy le t with
    | none =>
      rw [leastBy_eq_none_iff] at hl
      subst hl
      by_cases hma : le m a = true
      · rw [if_pos hma]
        simp [leastFrom, hma]
      · rw [if_neg hma]
        simp [leastFrom, hma]
    | some k =>
      dsimp only
      by_cases hma : le m a = true
      · rw [if_pos hma, ih m, hl]
        dsimp only
        by_cases hmk : le m k = true
        · rw [if_pos hmk]
          by_cases hak : le a k = true
          · rw [if_pos hak, if_pos hma]
          · rw [if_neg hak, if_pos hmk]
        · rw [if_neg hmk]
          have hak : ¬ le a k = true := fun hak => hmk (htrans m a k hma hak)
          rw [if_neg hak, if_neg hmk]
      · rw [if_neg hma, ih a, hl]
        dsimp only
        by_cases hak : le a k = true
        · rw [if_pos hak, if_neg hma]
        · rw [if_neg hak]
          have hmk : ¬ le m k = true := by
            intro hmk
            rcases htotal k a with hka | hka
            · exact hma (htrans m k a hmk hka)
            · exact hak hka
          rw [if_neg hmk]

theorem foldl_pickBetter {lt le : α → α → Bool}
    (hcompat : ∀ c d, lt c d = !(le d c)) :
    ∀ (l : List α) (m : α), l.foldl (pickBetter lt) (some m) = some (leastFrom le m l) := by
  intro l
  induction l with
  | nil => intro m; rfl
  | cons a t ih =>
    intro m
    show List.foldl (pickBetter lt) (pickBetter lt (some m) a) t = _
    rw [leastFrom]
    by_cases hma : le m a = true
    · have hstep : pickBetter lt (some m) a = some m := by
        simp [pickBetter, hcompat a m, hma]
      rw [hstep, ih m, if_pos hma]
    · have hstep : pickBetter lt (some m) a = some a := by
        simp [pickBetter, hcompat a m, Bool.not_eq_true (le m a) ▸ hma]
      rw [hstep, ih a, if_neg hma]

/-! ### Comparator facts -/

theorem scoreLe_trans (p : Params) :
    ∀ a b c, scoreLe p a b = true → scoreLe p b c = true → scoreLe p a c = true := by
  intro a b c h1 h2
  simp only [scoreLe, decide_eq_true_eq] at *
  exact lex3Le_trans h1 h2

theorem scoreLe_total (p : Params) : ∀ a b, scoreLe p a b = true ∨ scoreLe p b a = true := by
  intro a b
  simp only [scoreLe, decide_eq_true_eq]
  exact lex3Le_total _ _

theorem altLe_trans : ∀ a b c : Combo, altLe a b = true → altLe b c = true → altLe a c = true := by
  intro a b c h1 h2
  simp only [altLe, decide_eq_true_eq] at *
  exact lex3Le_trans h1 h2

theorem altLe_total : ∀ a b : Combo, altLe a b = true ∨ altLe b a = true := by
  intro a b
  simp only [altLe, decide_eq_true_eq]
  exact lex3Le_total _ _

theorem mixLe_trans : ∀ a b c : Combo, mixLe a b = true → mixLe b c = true → mixLe a c = true := by
  intro a b c h1 h2
  simp only [mixLe, decide_eq_true_eq] at *
  exact lex3Le_trans h1 h2

theorem mixLe_total : ∀ a b : Combo, mixLe a b = true ∨ mixLe b a = true := by
  intro a b
  simp only [mixLe, decide_eq_true_eq]
  exact lex3Le_total _ _

theorem mixLt_eq_not_mixLe : ∀ c d : Combo, mixLt c d = !(mixLe d c) := by
  intro c d
  simp only [mixLt, mixLe]
  rw [decide_eq_decide.mpr lex3Lt_iff_not_le, decide_not]

/-! ### Characterizing the two optimizers' results -/

theorem optimize_mix_eq_leastBy (p : Params) :
    optimize_mix p = leastBy mixLe (mixCandidates p) := by
  unfold optimize_mix
  cases hmc : mixCandidates p with
  | nil => rfl
  | cons a t =>
    show List.foldl (pickBetter mixLt) (pickBetter mixLt none a) t = _
    have h1 : pickBetter mixLt none a = some a := rfl
    rw [h1, foldl_pickBetter mixLt_eq_not_mixLe t a,
      leastFrom_eq_leastBy mixLe_trans mixLe_total, leastBy]
    cases leastBy mixLe t <;> rfl

theorem rank_ok_sort {p : Params} {best : Combo} {alts : List Combo}
    (h : optimize_and_rank p = RankedResult.ok best alts) :
    ∃ rest, stableSort (scoreLe p) (candidates p) = best :: rest ∧
      alts = altsTake p.top_k [] (stableSort altLe (best :: rest)) := by
  unfold optimize_and_rank at h
  cases hm : stableSort (scoreLe p) (candidates p) with
  | nil =>
    rw [hm] at h
    exact absurd h (by simp)
  | cons b rest =>
    rw [hm] at h
    dsimp only at h
    injection h with h1 h2
    subst h1
    exact ⟨rest, rfl, h2.symm⟩

theorem rank_infeasible_iff {p : Params} :
    optimize_and_rank p = RankedResult.infeasible ↔ candidates p = [] := by
  unfold optimize_and_rank
  cases hm : stableSort (scoreLe p) (candidates p) with
  | nil =>
    have : candidates p = [] := by
      have hp := stableSort_perm (scoreLe p) (candidates p)
      rw [hm] at hp
      exact (hp.symm).eq_nil
    simp [this]
  | cons b rest =>
    have : candidates p ≠ [] := by
      intro hc
      rw [hc] at hm
      simp [stableSort] at hm
    simp [this]

theorem rank_best_least {p : Params} {best : Combo} {alts : List Combo}
    (h : optimize_and_rank p = RankedResult.ok best alts) :
    leastBy (scoreLe p) (candidates p) = some best := by
  obtain ⟨rest, hm, -⟩ := rank_ok_sort h
  rw [← headOption_stableSort, hm]
  rfl

theorem rank_best_mem {p : Params} {best : Combo} {alts : List Combo}
    (h : optimize_and_rank p = RankedResult.ok best alts) :
    best ∈ candidates p :=
  leastBy_mem (rank_best_least h)

theorem rank_best_min {p : Params} {best : Combo} {alts : List Combo}
    (h : optimize_and_rank p = RankedResult.ok best alts) :
    ∀ c ∈ candidates p, lex3Le (score p best) (score p c) := by
  intro c hc
  have := leastBy_le (scoreLe_trans p) (scoreLe_total p) (rank_best_least h) c hc
  simpa only [scoreLe, decide_eq_true_eq] using this

/-! ### Arithmetic and membership facts about the enumeration -/

theorem le_cdiv_mul {g : ℕ} (n : ℕ) (hg : 0 < g) : n ≤ cdiv n g * g := by
  rcases Nat.eq_zero_or_pos n with rfl | hn
  · simp [cdiv]
  · have hmod : (n + g - 1) % g < g := Nat.mod_lt _ hg
    have hdm : g * ((n + g - 1) / g) + (n + g - 1) % g = n + g - 1 := Nat.div_add_mod _ _
    unfold cdiv
    rw [Nat.mul_comm g ((n + g - 1) / g)] at hdm
    generalize hqg : (n + g - 1) / g * g = Q at hdm ⊢
    omega

theorem mkCombo_purchased_ge (p : Params) (hg7 : 0 < p.g7) (a b d : ℕ) :
    p.req ≤ (mkCombo p a b d).purchased := by
  unfold mkCombo
  dsimp only
  by_cases h : p.req ≤ a * p.g250 + b * p.g8 + d * p.g125
  · rw [if_pos h]
    simpa using h
  · rw [if_neg h]
    have hcd := le_cdiv_mul (p.req - (a * p.g250 + b * p.g8 + d * p.g125)) hg7
    generalize hq : cdiv (p.req - (a * p.g250 + b * p.g8 + d * p.g125)) p.g7 * p.g7 = Q at hcd ⊢
    omega

theorem mem_candidates {p : Params} {c : Combo} :
    c ∈ candidates p ↔ ∃ a b d, a ≤ max_250 p ∧ b ≤ max_8 p ∧ d ≤ max_125 p ∧
      shareOk p (mkCombo p a b d) = true ∧ c = mkCombo p a b d := by
  unfold candidates
  simp only [List.mem_flatMap, List.mem_filterMap, List.mem_range, Nat.lt_succ_iff]
  constructor
  · rintro ⟨a, ha, b, hb, d, hd, hc⟩
    by_cases hs : shareOk p (mkCombo p a b d) = true
    · rw [if_pos hs] at hc
      exact ⟨a, b, d, ha, hb, hd, hs, (Option.some.inj hc).symm⟩
    · rw [if_neg hs] at hc
      simp at hc
  · rintro ⟨a, b, d, ha, hb, hd, hs, rfl⟩
    exact ⟨a, ha, b, hb, d, hd, by rw [if_pos hs]⟩

theorem mem_mixCandidates {p : Params} {c : Combo} :
    c ∈ mixCandidates p ↔ ∃ a b d, a ≤ cdiv p.req p.g250 + 6 ∧ b ≤ cdiv p.req p.g8 + 6 ∧
      d ≤ cdiv p.req p.g125 + 6 ∧ c = mkCombo p a b d := by
  unfold mixCandidates
  simp only [List.mem_flatMap, List.mem_map, List.mem_range, Nat.lt_succ_iff]
  constructor
  · rintro ⟨a, ha, b, hb, d, hd, rfl⟩
    exact ⟨a, b, d, ha, hb, hd, rfl⟩
  · rintro ⟨a, b, d, ha, hb, hd, rfl⟩
    exact ⟨a, ha, b, hb, d, hd, rfl⟩

/-! ### Properties of the alternatives dedup/truncate loop -/

theorem altsTake_sublist (l : List Combo) :
    ∀ k seen, List.Sublist (altsTake k seen l) l := by
  induction l with
  | nil =>
    intro k seen
    simp [altsTake]
  | cons c rest ih =>
    intro k seen
    rw [altsTake]
    by_cases h1 : mixTuple c ∈ seen
    · rw [if_pos h1]
      exact (ih k seen).cons c
    · rw [if_neg h1]
      by_cases h2 : k ≤ 1
      · rw [if_pos h2]
        exact (List.nil_sublist rest).cons₂ c
      · rw [if_neg h2]
        exact (ih (k - 1) (mixTuple c :: seen)).cons₂ c

theorem altsTake_notin_seen (l : List Combo) :
    ∀ k seen, ∀ c ∈ altsTake k seen l, mixTuple c ∉ seen := by
  induction l with
  | nil =>
    intro k seen c hc
    simp [altsTake] at hc
  | cons x rest ih =>
    intro k seen c hc
    rw [altsTake] at hc
    by_cases h1 : mixTuple x ∈ seen
    · rw [if_pos h1] at hc
      exact ih k seen c hc
    · rw [if_neg h1] at hc
      by_cases h2 : k ≤ 1
      · rw [if_pos h2] at hc
        obtain rfl : c = x := by simpa using hc
        exact h1
      · rw [if_neg h2] at hc
        rcases List.mem_cons.mp hc with rfl | hc
        · exact h1
        · intro hmem
          exact ih (k - 1) (mixTuple x :: seen) c hc (List.mem_cons_of_mem _ hmem)

theorem altsTake_pairwise_ne (l : List Combo) :
    ∀ k seen, (altsTake k seen l).Pairwise (fun c d => mixTuple c ≠ mixTuple d) := by
  induction l with
  | nil =>
    intro k seen
    simp [altsTake]
  | cons x rest ih =>
    intro k seen
    rw [altsTake]
    by_cases h1 : mixTuple x ∈ seen
    · rw [if_pos h1]
      exact ih k seen
    · rw [if_neg h1]
      by_cases h2 : k ≤ 1
      · rw [if_pos h2]
        simp
      · rw [if_neg h2]
        refine List.Pairwise.cons ?_ (ih (k - 1) (mixTuple x :: seen))
        intro c hc heq
        exact altsTake_notin_seen rest (k - 1) (mixTuple x :: seen) c hc
          (heq ▸ List.mem_cons_self _ _)

theorem altsTake_length (l : List Combo) :
    ∀ k seen, 1 ≤ k → (altsTake k seen l).length ≤ k := by
  induction l with
  | nil =>
    intro k seen _
    simp [altsTake]
  | cons x rest ih =>
    intro k seen hk
    rw [altsTake]
    by_cases h1 : mixTuple x ∈ seen
    · rw [if_pos h1]
      exact ih k seen hk
    · rw [if_neg h1]
      by_cases h2 : k ≤ 1
      · rw [if_pos h2]
        simpa using hk
      · rw [if_neg h2]
        have hk1 : 1 ≤ k - 1 := by omega
        have := ih (k - 1) (mixTuple x :: seen) hk1
        simp only [List.length_cons]
        omega

/-! ### Field computations for enumerated combinations -/

theorem mkCombo_x250 (p : Params) (a b d : ℕ) : (mkCombo p a b d).x250 = a := rfl

theorem mkCombo_x8 (p : Params) (a b d : ℕ) : (mkCombo p a b d).x8 = b := rfl

theorem mkCombo_x125 (p : Params) (a b d : ℕ) : (mkCombo p a b d).x125 = d := rfl

theorem mkCombo_over_eq (p : Params) (a b d : ℕ) :
    (mkCombo p a b d).over = ((mkCombo p a b d).purchased : ℤ) - (p.req : ℤ) := rfl

theorem mkCombo_x7_covered (p : Params) {a b d : ℕ}
    (h : p.req ≤ a * p.g250 + b * p.g8 + d * p.g125) : (mkCombo p a b d).x7 = 0 := by
  unfold mkCombo
  dsimp only
  rw [if_pos h]

theorem mkCombo_purchased_covered (p : Params) {a b d : ℕ}
    (h : p.req ≤ a * p.g250 + b * p.g8 + d * p.g125) :
    (mkCombo p a b d).purchased = a * p.g250 + b * p.g8 + d * p.g125 := by
  unfold mkCombo
  dsimp only
  rw [if_pos h]
  simp

theorem mkCombo_tins_covered (p : Params) {a b d : ℕ}
    (h : p.req ≤ a * p.g250 + b * p.g8 + d * p.g125) :
    (mkCombo p a b d).tins = a + b + d := by
  unfold mkCombo
  dsimp only
  rw [if_pos h]
  omega

theorem mkCombo_cost_covered (p : Params) {a b d : ℕ}
    (h : p.req ≤ a * p.g250 + b * p.g8 + d * p.g125) :
    (mkCombo p a b d).cost = a * p.p250 + b * p.p8 + d * p.p125 := by
  unfold mkCombo
  dsimp only
  rw [if_pos h]
  push_cast
  ring

theorem mkCombo_inj {p : Params} {a b d a' b' d' : ℕ}
    (h : mkCombo p a b d = mkCombo p a' b' d') : a = a' ∧ b = b' ∧ d = d' :=
  ⟨congrArg Combo.x250 h, congrArg Combo.x8 h, congrArg Combo.x125 h⟩

theorem rank_alts_mem {p : Params} {best : Combo} {alts : List Combo}
    (h : optimize_and_rank p = RankedResult.ok best alts) :
    ∀ c ∈ alts, c ∈ candidates p := by
  obtain ⟨rest, hm, ha⟩ := rank_ok_sort h
  intro c hc
  rw [ha] at hc
  have h1 : c ∈ stableSort altLe (best :: rest) :=
    (altsTake_sublist _ _ _).subset hc
  rw [mem_stableSort, ← hm, mem_stableSort] at h1
  exact h1

theorem rankBest_eq_leastBy (p : Params) :
    rankBest p = leastBy (scoreLe p) (candidates p) := by
  unfold rankBest optimize_and_rank
  rw [← headOption_stableSort]
  cases hm : stableSort (scoreLe p) (candidates p) with
  | nil => rfl
  | cons b rest => rfl

/-! ### Concrete run of the optimizer on pW -/

set_option maxRecDepth 40000 in
unseal Rat.add Rat.mul Rat.inv Rat.sub in
theorem run_pW : optimize_and_rank pW = RankedResult.ok bW aW := by decide

/-- C1: every combination returned by optimize_and_rank when it does not
report infeasibility — the best and every alternative — satisfies
purchased_grams ≥ required_grams, hence overage ≥ 0 (the fill count is the
ceiling of the residual divided by the fill kind's grams). -/
theorem purchased_covers_requirement (p : Params) (hg7 : 0 < p.g7)
    (best : Combo) (alts : List Combo)
    (h : optimize_and_rank p = RankedResult.ok best alts) :
    (p.req ≤ best.purchased ∧ 0 ≤ best.over) ∧
      ∀ c ∈ alts, p.req ≤ c.purchased ∧ 0 ≤ c.over := by
  have hfeas : ∀ c ∈ candidates p, p.req ≤ c.purchased ∧ 0 ≤ c.over := by
    intro c hc
    obtain ⟨a, b, d, -, -, -, -, rfl⟩ := mem_candidates.mp hc
    have h1 := mkCombo_purchased_ge p hg7 a b d
    refine ⟨h1, ?_⟩
    rw [mkCombo_over_eq]
    omega
  exact ⟨hfeas best (rank_best_mem h), fun c hc => hfeas c (rank_alts_mem h c hc)⟩

theorem purchased_covers_requirement_witness :
    (pW.req ≤ bW.purchased ∧ 0 ≤ bW.over) ∧
      ∀ c ∈ aW, pW.req ≤ c.purchased ∧ 0 ≤ c.over :=
  purchased_covers_requirement pW (by decide) bW aW run_pW

/-- C3: with the 125 g share cap active at limit L, every returned
combination (best and each alternative) with positive purchased grams has
125 g share at most L percent; over-share combinations are filtered out of
the candidate list. -/
theorem share_cap_enforced (p : Params) (hon : p.cap_125_share_on = true)
    (best : Combo) (alts : List Combo)
    (h : optimize_and_rank p = RankedResult.ok best alts) :
    (0 < best.purchased →
      ((best.x125 : ℚ) * (p.g125 : ℚ) / (best.purchased : ℚ)) * 100 ≤ p.cap_125_share_pct) ∧
      ∀ c ∈ alts, 0 < c.purchased →
        ((c.x125 : ℚ) * (p.g125 : ℚ) / (c.purchased : ℚ)) * 100 ≤ p.cap_125_share_pct := by
  have hall : ∀ c ∈ candidates p, 0 < c.purchased →
      ((c.x125 : ℚ) * (p.g125 : ℚ) / (c.purchased : ℚ)) * 100 ≤ p.cap_125_share_pct := by
    intro c hc hpos
    obtain ⟨a, b, d, -, -, -, hs, rfl⟩ := mem_candidates.mp hc
    simp only [shareOk, hon, Bool.true_and, Bool.not_eq_true', Bool.and_eq_false_iff,
      decide_eq_false_iff_not, not_lt] at hs
    rcases hs with hs | hs
    · exact absurd hpos (by omega)
    · exact hs
  exact ⟨hall best (rank_best_mem h), fun c hc => hall c (rank_alts_mem h c hc)⟩

theorem share_cap_enforced_witness :
    (0 < bW.purchased →
      ((bW.x125 : ℚ) * (pW.g125 : ℚ) / (bW.purchased : ℚ)) * 100 ≤ pW.cap_125_share_pct) ∧
      ∀ c ∈ aW, 0 < c.purchased →
        ((c.x125 : ℚ) * (pW.g125 : ℚ) / (c.purchased : ℚ)) * 100 ≤ pW.cap_125_share_pct :=
  share_cap_enforced pW rfl bW aW run_pW

/-- C4: optimize_and_rank reports infeasibility exactly when zero
combinations survive the caps and the share constraint, as a distinct
result value rather than an exception, and no valid best-plus-alternatives
result (in particular no zero-cost zero-unit combination) is equal to it. -/
theorem infeasibility_signal (p : Params) :
    (optimize_and_rank p = RankedResult.infeasible ↔ candidates p = []) ∧
      ∀ (b : Combo) (alts : List Combo), RankedResult.infeasible ≠ RankedResult.ok b alts :=
  ⟨rank_infeasible_iff, fun _ _ h => by cases h⟩

/-- C5: whatever the objective mode, the alternatives list is sorted
ascending by (total_units, total_cost, overage), contains no two entries
with the same four-tuple of unit counts, and has at most top_k entries. -/
theorem alternatives_sorted_unique (p : Params) (hk : 1 ≤ p.top_k)
    (best : Combo) (alts : List Combo)
    (h : optimize_and_rank p = RankedResult.ok best alts) :
    List.Pairwise (fun c d => lex3Le (altKey c) (altKey d)) alts ∧
      List.Pairwise (fun c d => mixTuple c ≠ mixTuple d) alts ∧
      alts.length ≤ p.top_k := by
  obtain ⟨rest, hm, ha⟩ := rank_ok_sort h
  subst ha
  refine ⟨?_, altsTake_pairwise_ne _ _ _, altsTake_length _ _ _ hk⟩
  have hsorted := stableSort_pairwise altLe_trans altLe_total (best :: rest)
  have hsub := altsTake_sublist (stableSort altLe (best :: rest)) p.top_k []
  have hpw := List.Pairwise.sublist hsub hsorted
  exact hpw.imp (fun hcd => by simpa only [altLe, decide_eq_true_eq] using hcd)

theorem alternatives_sorted_unique_witness :
    List.Pairwise (fun c d => lex3Le (altKey c) (altKey d)) aW ∧
      List.Pairwise (fun c d => mixTuple c ≠ mixTuple d) aW ∧
      aW.length ≤ pW.top_k :=
  alternatives_sorted_unique pW (by decide) bW aW run_pW

/-- C8: for guest_count ≥ 1, tastings_per_guest > 0 and grams_per_tasting
> 0, grams_required returns the ceiling of guest_count × tastings_per_guest
× grams_per_tasting, an integer never less than the exact product. -/
theorem grams_required_is_ceiling (guests : ℕ) (tastings g_per_taste : ℚ)
    (hg : 1 ≤ guests) (ht : 0 < tastings) (hgt : 0 < g_per_taste) :
    grams_required guests tastings g_per_taste = ⌈(guests : ℚ) * tastings * g_per_taste⌉ ∧
      (guests : ℚ) * tastings * g_per_taste ≤ (grams_required guests tastings g_per_taste : ℚ) := by
  refine ⟨rfl, ?_⟩
  unfold grams_required
  exact Int.le_ceil _

theorem grams_required_is_ceiling_witness :
    grams_required 90 2 3 = ⌈(90 : ℚ) * 2 * 3⌉ ∧
      (90 : ℚ) * 2 * 3 ≤ (grams_required 90 2 3 : ℚ) :=
  grams_required_is_ceiling 90 2 3 (by norm_num) (by norm_num) (by norm_num)

/-- C2: in "Fewest tins (recommended)" mode, no surviving combination of the
enumerated search space has strictly fewer total units than the selected
best, and none with equal total units has strictly smaller total cost. -/
theorem fewest_best_minimal (p : Params) (hobj : p.objective = Objective.fewest)
    (best : Combo) (alts : List Combo)
    (h : optimize_and_rank p = RankedResult.ok best alts) :
    ∀ c ∈ candidates p, ¬ (c.tins < best.tins) ∧ (c.tins = best.tins → ¬ (c.cost < best.cost)) := by
  intro c hc
  have hmin := rank_best_min h c hc
  rw [score, score, hobj] at hmin
  simp only [lex3Le] at hmin
  rcases hmin with hlt | ⟨heq, hrest⟩
  · have htins : best.tins < c.tins := by exact_mod_cast hlt
    constructor
    · omega
    · intro he
      omega
  · have htins : best.tins = c.tins := by exact_mod_cast heq
    constructor
    · omega
    · intro _ hcost
      rcases hrest with hlt2 | ⟨heq2, -⟩
      · exact absurd hcost (not_lt.mpr hlt2.le)
      · exact absurd hcost (not_lt.mpr heq2.le)

set_option maxRecDepth 40000 in
unseal Rat.add Rat.mul Rat.inv Rat.sub in
theorem cW_mem_candidates : cW ∈ candidates pW := by decide

theorem fewest_best_minimal_witness :
    ¬ (cW.tins < bW.tins) ∧ (cW.tins = bW.tins → ¬ (cW.cost < bW.cost)) :=
  fewest_best_minimal pW rfl bW aW run_pW cW cW_mem_candidates

/-- C6: the score of each surviving combination is exactly the spec's sort
key for the selected objective mode — (units, cost, overage) for fewest
tins, (cost + penalty × units, overage, units) for balanced, (cost,
overage, units) for cheapest — and the returned best has the
lexicographically smallest key among all surviving combinations. -/
theorem objective_scoring (p : Params) (best : Combo) (alts : List Combo)
    (h : optimize_and_rank p = RankedResult.ok best alts) :
    (p.objective = Objective.fewest → ∀ c ∈ candidates p,
      lex3Le ((best.tins : ℚ), (best.cost, (best.over : ℚ)))
             ((c.tins : ℚ), (c.cost, (c.over : ℚ)))) ∧
    (p.objective = Objective.balanced → ∀ c ∈ candidates p,
      lex3Le (best.cost + p.service_penalty * (best.tins : ℚ), ((best.over : ℚ), (best.tins : ℚ)))
             (c.cost + p.service_penalty * (c.tins : ℚ), ((c.over : ℚ), (c.tins : ℚ)))) ∧
    (p.objective = Objective.cheapest → ∀ c ∈ candidates p,
      lex3Le (best.cost, ((best.over : ℚ), (best.tins : ℚ)))
             (c.cost, ((c.over : ℚ), (c.tins : ℚ)))) := by
  refine ⟨?_, ?_, ?_⟩ <;> intro hobj c hc <;> have hmin := rank_best_min h c hc <;>
    rw [score, score, hobj] at hmin <;> exact hmin

theorem objective_scoring_witness :
    lex3Le ((bW.tins : ℚ), (bW.cost, (bW.over : ℚ)))
           ((cW.tins : ℚ), (cW.cost, (cW.over : ℚ))) :=
  (objective_scoring pW bW aW run_pW).1 rfl cW cW_mem_candidates

/-- C7: with positive grams per unit for all four kinds and a non-negative
share-cap percentage, the candidate list is never empty — the combination
with zero free-choice tins survives the share filter since its 125 g share
is zero — so the infeasibility record is never returned. -/
theorem never_infeasible (p : Params) (hg250 : 0 < p.g250) (hg8 : 0 < p.g8)
    (hg7 : 0 < p.g7) (hg125 : 0 < p.g125) (hpct : 0 ≤ p.cap_125_share_pct) :
    candidates p ≠ [] ∧ optimize_and_rank p ≠ RankedResult.infeasible := by
  have hx : (mkCombo p 0 0 0).x125 = 0 := rfl
  have hshare : shareOk p (mkCombo p 0 0 0) = true := by
    simp [shareOk, hx, not_lt.mpr hpct]
  have hz : mkCombo p 0 0 0 ∈ candidates p :=
    mem_candidates.mpr ⟨0, 0, 0, Nat.zero_le _, Nat.zero_le _, Nat.zero_le _, hshare, rfl⟩
  have hne : candidates p ≠ [] := List.ne_nil_of_mem hz
  refine ⟨hne, ?_⟩
  intro heq
  exact hne (rank_infeasible_iff.mp heq)

unseal Rat.add Rat.mul Rat.inv Rat.sub in
theorem pW_pct_nonneg : 0 ≤ pW.cap_125_share_pct := by decide

theorem never_infeasible_witness :
    candidates pW ≠ [] ∧ optimize_and_rank pW ≠ RankedResult.infeasible :=
  never_infeasible pW (by decide) (by decide) (by decide) (by decide) pW_pct_nonneg

/-- C9: with required_grams = 0, positive grams per unit for all kinds,
non-negative prices and a non-negative service penalty, the returned best
combination has all four unit counts 0, purchased_grams = 0, overage = 0
and total_cost = 0, under every objective mode. -/
theorem zero_requirement_best (p : Params) (hreq : p.req = 0)
    (hg250 : 0 < p.g250) (hg8 : 0 < p.g8) (hg7 : 0 < p.g7) (hg125 : 0 < p.g125)
    (hp250 : 0 ≤ p.p250) (hp8 : 0 ≤ p.p8) (hp7 : 0 ≤ p.p7) (hp125 : 0 ≤ p.p125)
    (hpen : 0 ≤ p.service_penalty)
    (best : Combo) (alts : List Combo)
    (h : optimize_and_rank p = RankedResult.ok best alts) :
    best.x250 = 0 ∧ best.x8 = 0 ∧ best.x7 = 0 ∧ best.x125 = 0 ∧
      best.purchased = 0 ∧ best.over = 0 ∧ best.cost = 0 := by
  have h0 : p.req ≤ 0 * p.g250 + 0 * p.g8 + 0 * p.g125 := by simp [hreq]
  set z := mkCombo p 0 0 0 with hzdef
  have hzx7 : z.x7 = 0 := mkCombo_x7_covered p h0
  have hzpur : z.purchased = 0 := by
    rw [hzdef, mkCombo_purchased_covered p h0]
    simp
  have hztins : z.tins = 0 := by
    rw [hzdef, mkCombo_tins_covered p h0]
  have hzcost : z.cost = 0 := by
    rw [hzdef, mkCombo_cost_covered p h0]
    simp
  have hzover : z.over = 0 := by
    rw [hzdef, mkCombo_over_eq, ← hzdef, hzpur, hreq]
    simp
  have hzshare : shareOk p z = true := by
    simp [shareOk, hzpur]
  have hz : z ∈ candidates p :=
    mem_candidates.mpr ⟨0, 0, 0, Nat.zero_le _, Nat.zero_le _, Nat.zero_le _, hzshare, rfl⟩
  have hstrict : ∀ c ∈ candidates p, c ≠ z → lex3Lt (score p z) (score p c) := by
    intro c hc hne
    obtain ⟨a, b, d, -, -, -, -, rfl⟩ := mem_candidates.mp hc
    have habd : ¬ (a = 0 ∧ b = 0 ∧ d = 0) := by
      rintro ⟨rfl, rfl, rfl⟩
      exact hne rfl
    have hgsf : 0 < a * p.g250 + b * p.g8 + d * p.g125 := by
      have h1 : 0 < a ∨ 0 < b ∨ 0 < d := by
        by_contra hcon
        push_neg at hcon
        exact habd ⟨by omega, by omega, by omega⟩
      rcases h1 with ha | hb | hd
      · exact Nat.lt_of_lt_of_le (Nat.mul_pos ha hg250)
          ((Nat.le_add_right _ _).trans (Nat.le_add_right _ _))
      · exact Nat.lt_of_lt_of_le (Nat.mul_pos hb hg8)
          ((Nat.le_add_left _ _).trans (Nat.le_add_right _ _))
      · exact Nat.lt_of_lt_of_le (Nat.mul_pos hd hg125) (Nat.le_add_left _ _)
    have hcov : p.req ≤ a * p.g250 + b * p.g8 + d * p.g125 := by
      rw [hreq]
      exact Nat.zero_le _
    set c := mkCombo p a b d with hcdef
    have hcpur : c.purchased = a * p.g250 + b * p.g8 + d * p.g125 :=
      mkCombo_purchased_covered p hcov
    have hctins : c.tins = a + b + d := mkCombo_tins_covered p hcov
    have hccost : c.cost = a * p.p250 + b * p.p8 + d * p.p125 :=
      mkCombo_cost_covered p hcov
    have hcover : 0 < c.over := by
      rw [hcdef, mkCombo_over_eq, ← hcdef, hcpur, hreq]
      have : (0 : ℤ) < (a * p.g250 + b * p.g8 + d * p.g125 : ℕ) := by exact_mod_cast hgsf
      omega
    have hctins_pos : 0 < c.tins := by
      rw [hctins]
      by_contra hcon
      push_neg at hcon
      exact habd ⟨by omega, by omega, by omega⟩
    have hccost_nonneg : 0 ≤ c.cost := by
      rw [hccost]
      have n1 : (0 : ℚ) ≤ (a : ℚ) := by positivity
      have n2 : (0 : ℚ) ≤ (b : ℚ) := by positivity
      have n3 : (0 : ℚ) ≤ (d : ℚ) := by positivity
      have := mul_nonneg n1 hp250
      have := mul_nonneg n2 hp8
      have := mul_nonneg n3 hp125
      linarith
    cases ho : p.objective with
    | fewest =>
      rw [score, score, ho]
      simp only [lex3Lt]
      refine Or.inl ?_
      rw [hztins]
      exact_mod_cast hctins_pos
    | cheapest =>
      rw [score, score, ho]
      simp only [lex3Lt]
      rcases lt_or_eq_of_le hccost_nonneg with hlt | heq
      · exact Or.inl (by rw [hzcost]; exact hlt)
      · refine Or.inr ⟨by rw [hzcost, heq], Or.inl ?_⟩
        rw [hzover]
        have : (0 : ℚ) < (c.over : ℚ) := by exact_mod_cast hcover
        simpa using this
    | balanced =>
      rw [score, score, ho]
      simp only [lex3Lt]
      have hzfirst : z.cost + p.service_penalty * (z.tins : ℚ) = 0 := by
        rw [hzcost, hztins]
        simp
      have hcfirst : 0 ≤ c.cost + p.service_penalty * (c.tins : ℚ) := by
        have n1 : (0 : ℚ) ≤ (c.tins : ℚ) := by positivity
        have := mul_nonneg hpen n1
        linarith
      rcases lt_or_eq_of_le hcfirst with hlt | heq
      · exact Or.inl (by rw [hzfirst]; exact hlt)
      · refine Or.inr ⟨by rw [hzfirst, ← heq], Or.inl ?_⟩
        rw [hzover]
        have : (0 : ℚ) < (c.over : ℚ) := by exact_mod_cast hcover
        simpa using this
  have hbest : best = z := by
    by_contra hbz
    have hlt := hstrict best (rank_best_mem h) hbz
    have hle := leastBy_le (scoreLe_trans p) (scoreLe_total p) (rank_best_least h) z hz
    simp only [scoreLe, decide_eq_true_eq] at hle
    exact (lex3Lt_iff_not_le.mp hlt) hle
  subst hbest
  refine ⟨rfl, rfl, hzx7, rfl, hzpur, hzover, hzcost⟩

set_option maxRecDepth 40000 in
unseal Rat.add Rat.mul Rat.inv Rat.sub in
theorem run_pZ : optimize_and_rank pZ = RankedResult.ok bZ aZ := by decide

theorem zero_requirement_best_witness :
    bZ.x250 = 0 ∧ bZ.x8 = 0 ∧ bZ.x7 = 0 ∧ bZ.x125 = 0 ∧
      bZ.purchased = 0 ∧ bZ.over = 0 ∧ bZ.cost = 0 :=
  zero_requirement_best pZ rfl (by decide) (by decide) (by decide) (by decide)
    (by norm_num [pZ]) (by norm_num [pZ]) (by norm_num [pZ]) (by norm_num [pZ])
    (by norm_num [pZ]) bZ aZ run_pZ

/-! ### Relating the v4.2 enumeration to the legacy one -/

theorem filterMap_some_eq_map (f : α → β) (l : List α) :
    l.filterMap (fun x => some (f x)) = l.map f := by
  induction l with
  | nil => rfl
  | cons a t ih => simp [List.filterMap_cons, ih]

theorem candidates_shareOff {p : Params} (hshare : p.cap_125_share_on = false) :
    candidates p = (List.range (max_250 p + 1)).flatMap (fun a =>
      (List.range (max_8 p + 1)).flatMap (fun b =>
        (List.range (max_125 p + 1)).map (fun d => mkCombo p a b d))) := by
  unfold candidates
  have hok : ∀ c : Combo, shareOk p c = true := fun c => by simp [shareOk, hshare]
  simp only [hok, if_true, filterMap_some_eq_map]

theorem flatMap_sublist {l₁ l₂ : List α} {f g : α → List β}
    (hl : List.Sublist l₁ l₂) (hfg : ∀ a, List.Sublist (f a) (g a)) :
    List.Sublist (l₁.flatMap f) (l₂.flatMap g) := by
  induction hl with
  | slnil => simp
  | cons a _ ih =>
    simp only [List.flatMap_cons]
    exact ih.trans (List.sublist_append_right _ _)
  | cons₂ a _ ih =>
    simp only [List.flatMap_cons]
    exact (hfg a).append ih

theorem max_250_nocap {p : Params} (h : p.cap_250 = 0) :
    max_250 p = cdiv p.req p.g250 + 8 := by simp [max_250, h]

theorem max_8_nocap {p : Params} (h : p.cap_8 = 0) :
    max_8 p = cdiv p.req p.g8 + 8 := by simp [max_8, h]

theorem max_125_nocap {p : Params} (h : p.cap_125 = 0) :
    max_125 p = cdiv p.req p.g125 + 8 := by simp [max_125, h]

theorem mixCandidates_sublist {p : Params} (hshare : p.cap_125_share_on = false)
    (hc250 : p.cap_250 = 0) (hc8 : p.cap_8 = 0) (hc125 : p.cap_125 = 0) :
    List.Sublist (mixCandidates p) (candidates p) := by
  rw [candidates_shareOff hshare]
  unfold mixCandidates
  refine flatMap_sublist ?_ (fun a => ?_)
  · rw [max_250_nocap hc250]
    exact List.range_sublist.mpr (by omega)
  · refine flatMap_sublist ?_ (fun b => ?_)
    · rw [max_8_nocap hc8]
      exact List.range_sublist.mpr (by omega)
    · refine List.Sublist.map _ ?_
      rw [max_125_nocap hc125]
      exact List.range_sublist.mpr (by omega)

theorem candidates_nodup {p : Params} (hshare : p.cap_125_share_on = false) :
    (candidates p).Nodup := by
  rw [candidates_shareOff hshare]
  rw [List.nodup_flatMap]
  refine ⟨fun a _ => ?_, ?_⟩
  · rw [List.nodup_flatMap]
    refine ⟨fun b _ => ?_, ?_⟩
    · refine List.Nodup.map_on ?_ (List.nodup_range _)
      intro d1 _ d2 _ heq
      exact (mkCombo_inj heq).2.2
    · refine (List.pairwise_lt_range _).imp ?_
      intro b1 b2 hlt x hx1 hx2
      obtain ⟨d1, -, rfl⟩ := List.mem_map.mp hx1
      obtain ⟨d2, -, he⟩ := List.mem_map.mp hx2
      have : b2 = b1 := congrArg Combo.x8 he
      omega
  · refine (List.pairwise_lt_range _).imp ?_
    intro a1 a2 hlt x hx1 hx2
    obtain ⟨b1, -, hb1⟩ := List.mem_flatMap.mp hx1
    obtain ⟨b2, -, hb2⟩ := List.mem_flatMap.mp hx2
    obtain ⟨d1, -, rfl⟩ := List.mem_map.mp hb1
    obtain ⟨d2, -, he⟩ := List.mem_map.mp hb2
    have : a2 = a1 := congrArg Combo.x250 he
    omega

theorem dominated_outside (p : Params)
    (hg250 : 0 < p.g250) (hg8 : 0 < p.g8) (hg125 : 0 < p.g125)
    (hp250 : 0 ≤ p.p250) (hp8 : 0 ≤ p.p8) (hp125 : 0 ≤ p.p125) :
    ∀ c ∈ candidates p, c ∉ mixCandidates p → ∃ e ∈ mixCandidates p, mixLe c e = false := by
  intro c hc hnm
  obtain ⟨a, b, d, -, -, -, -, rfl⟩ := mem_candidates.mp hc
  have hout : cdiv p.req p.g250 + 6 < a ∨ cdiv p.req p.g8 + 6 < b ∨
      cdiv p.req p.g125 + 6 < d := by
    by_contra hcon
    push_neg at hcon
    exact hnm (mem_mixCandidates.mpr ⟨a, b, d, hcon.1, hcon.2.1, hcon.2.2, rfl⟩)
  set a' := min a (cdiv p.req p.g250 + 6) with ha'
  set b' := min b (cdiv p.req p.g8 + 6) with hb'
  set d' := min d (cdiv p.req p.g125 + 6) with hd'
  have hma : a' ≤ a := Nat.min_le_left _ _
  have hmb : b' ≤ b := Nat.min_le_left _ _
  have hmd : d' ≤ d := Nat.min_le_left _ _
  have hkey : p.req ≤ a * p.g250 + b * p.g8 + d * p.g125 ∧
      p.req ≤ a' * p.g250 + b' * p.g8 + d' * p.g125 ∧
      a' * p.g250 + b' * p.g8 + d' * p.g125 < a * p.g250 + b * p.g8 + d * p.g125 := by
    rcases hout with hA | hB | hD
    · have he : a' = cdiv p.req p.g250 + 6 := Nat.min_eq_right (Nat.le_of_lt hA)
      have h1 : p.req ≤ cdiv p.req p.g250 * p.g250 := le_cdiv_mul _ hg250
      have h2 : cdiv p.req p.g250 * p.g250 ≤ a' * p.g250 :=
        Nat.mul_le_mul_right _ (by omega)
      have h3 : a' * p.g250 ≤ a * p.g250 := Nat.mul_le_mul_right _ hma
      refine ⟨?_, ?_, ?_⟩
      · exact le_trans (le_trans h1 (le_trans h2 h3)) (by omega)
      · exact le_trans (le_trans h1 h2) (by omega)
      · have hlt : a' * p.g250 < a * p.g250 :=
          Nat.mul_lt_mul_of_lt_of_le (by omega) (Nat.le_refl _) hg250
        have h4 : b' * p.g8 ≤ b * p.g8 := Nat.mul_le_mul_right _ hmb
        have h5 : d' * p.g125 ≤ d * p.g125 := Nat.mul_le_mul_right _ hmd
        omega
    · have he : b' = cdiv p.req p.g8 + 6 := Nat.min_eq_right (Nat.le_of_lt hB)
      have h1 : p.req ≤ cdiv p.req p.g8 * p.g8 := le_cdiv_mul _ hg8
      have h2 : cdiv p.req p.g8 * p.g8 ≤ b' * p.g8 :=
        Nat.mul_le_mul_right _ (by omega)
      have h3 : b' * p.g8 ≤ b * p.g8 := Nat.mul_le_mul_right _ hmb
      refine ⟨?_, ?_, ?_⟩
      · exact le_trans (le_trans h1 (le_trans h2 h3)) (by omega)
      · exact le_trans (le_trans h1 h2) (by omega)
      · have hlt : b' * p.g8 < b * p.g8 :=
          Nat.mul_lt_mul_of_lt_of_le (by omega) (Nat.le_refl _) hg8
        have h4 : a' * p.g250 ≤ a * p.g250 := Nat.mul_le_mul_right _ hma
        have h5 : d' * p.g125 ≤ d * p.g125 := Nat.mul_le_mul_right _ hmd
        omega
    · have he : d' = cdiv p.req p.g125 + 6 := Nat.min_eq_right (Nat.le_of_lt hD)
      have h1 : p.req ≤ cdiv p.req p.g125 * p.g125 := le_cdiv_mul _ hg125
      have h2 : cdiv p.req p.g125 * p.g125 ≤ d' * p.g125 :=
        Nat.mul_le_mul_right _ (by omega)
      have h3 : d' * p.g125 ≤ d * p.g125 := Nat.mul_le_mul_right _ hmd
      refine ⟨?_, ?_, ?_⟩
      · exact le_trans (le_trans h1 (le_trans h2 h3)) (by omega)
      · exact le_trans (le_trans h1 h2) (by omega)
      · have hlt : d' * p.g125 < d * p.g125 :=
          Nat.mul_lt_mul_of_lt_of_le (by omega) (Nat.le_refl _) hg125
        have h4 : a' * p.g250 ≤ a * p.g250 := Nat.mul_le_mul_right _ hma
        have h5 : b' * p.g8 ≤ b * p.g8 := Nat.mul_le_mul_right _ hmb
        omega
  obtain ⟨hcov_c, hcov_e, hlt_gsf⟩ := hkey
  refine ⟨mkCombo p a' b' d',
    mem_mixCandidates.mpr ⟨a', b', d', Nat.min_le_right _ _, Nat.min_le_right _ _,
      Nat.min_le_right _ _, rfl⟩, ?_⟩
  have hcost_le : (mkCombo p a' b' d').cost ≤ (mkCombo p a b d).cost := by
    rw [mkCombo_cost_covered p hcov_e, mkCombo_cost_covered p hcov_c]
    have e1 : (a' : ℚ) ≤ (a : ℚ) := Nat.cast_le.mpr hma
    have e2 : (b' : ℚ) ≤ (b : ℚ) := Nat.cast_le.mpr hmb
    have e3 : (d' : ℚ) ≤ (d : ℚ) := Nat.cast_le.mpr hmd
    have m1 := mul_le_mul_of_nonneg_right e1 hp250
    have m2 := mul_le_mul_of_nonneg_right e2 hp8
    have m3 := mul_le_mul_of_nonneg_right e3 hp125
    linarith
  have hover_lt : (mkCombo p a' b' d').over < (mkCombo p a b d).over := by
    rw [mkCombo_over_eq, mkCombo_over_eq,
      mkCombo_purchased_covered p hcov_e, mkCombo_purchased_covered p hcov_c]
    have hz : ((a' * p.g250 + b' * p.g8 + d' * p.g125 : ℕ) : ℤ) <
        ((a * p.g250 + b * p.g8 + d * p.g125 : ℕ) : ℤ) := by exact_mod_cast hlt_gsf
    exact sub_lt_sub_right hz _
  rw [mixLe, decide_eq_false_iff_not]
  intro hle
  have hlt' : lex3Lt (mixKey (mkCombo p a' b' d')) (mixKey (mkCombo p a b d)) := by
    unfold lex3Lt mixKey
    dsimp only
    rcases lt_or_eq_of_le hcost_le with hq | hq
    · exact Or.inl hq
    · refine Or.inr ⟨hq, Or.inl ?_⟩
      exact_mod_cast hover_lt
  exact (lex3Lt_iff_not_le.mp hlt') hle

/-- C10: in "Cheapest only" mode with the share cap off and all per-kind
caps 0, optimize_and_rank selects exactly the combination the legacy
optimize_mix selects on the same sizes and prices — same four unit counts
and hence same purchased grams, overage, cost and tin count — despite the
differing enumeration margins (+8 versus +6): every combination only the
wider margin reaches is strictly dominated by its coordinatewise truncation
into the narrower range. -/
theorem cheapest_refines_legacy (p : Params)
    (hobj : p.objective = Objective.cheapest)
    (hshare : p.cap_125_share_on = false)
    (hc250 : p.cap_250 = 0) (hc8 : p.cap_8 = 0) (hc125 : p.cap_125 = 0)
    (hg250 : 0 < p.g250) (hg8 : 0 < p.g8) (hg7 : 0 < p.g7) (hg125 : 0 < p.g125)
    (hp250 : 0 ≤ p.p250) (hp8 : 0 ≤ p.p8) (hp7 : 0 ≤ p.p7) (hp125 : 0 ≤ p.p125) :
    optimize_mix p = rankBest p := by
  rw [optimize_mix_eq_leastBy, rankBest_eq_leastBy]
  have hsc : scoreLe p = mixLe := by
    funext c e
    simp only [scoreLe, mixLe, score, mixKey, hobj]
  rw [hsc]
  exact (leastBy_sublist_eq mixLe_trans mixLe_total
    (mixCandidates_sublist hshare hc250 hc8 hc125)
    (candidates_nodup hshare)
    (dominated_outside p hg250 hg8 hg125 hp250 hp8 hp125)).symm

theorem cheapest_refines_legacy_witness : optimize_mix pC = rankBest pC :=
  cheapest_refines_legacy pC rfl rfl rfl rfl rfl
    (by decide) (by decide) (by decide) (by decide)
    (by norm_num [pC]) (by norm_num [pC]) (by norm_num [pC]) (by norm_num [pC])
